import Mathlib

/-!
Verification of the GHT (Generic Hash Table) library, a separate-chaining
hash table written in C (`src/ght.c`, `src/ght.h`).

The embedding below translates the C source directly:

* `ght_key_t`, `ght_data_t`, `ght_hash_t`, `ght_width_t`, `ght_load_t`
  (all fixed-width unsigned integers in C) are modelled as `Nat`;
  the 64-bit wraparound of the Murmur3 digestor is modelled explicitly
  with `% 2 ^ 64`.  Integer widths of the table-bookkeeping counters
  (`load`, `width`) are idealized as unbounded naturals: no claim under
  scrutiny concerns counter overflow.
* `ght_load_factor_t` (C `double`) is modelled as `ℚ` with exact
  arithmetic; the auto-resize trigger comparison is the exact rational
  comparison corresponding to the C expression.
* The bucket array is a `List (List Bucket)`; the C `while` loop that
  walks a chain keeping a `prev` pointer is `chainSplit`, which returns
  the nodes before the match, the matching node, and the nodes after it.
* Heap allocation always succeeds in the model (allocation failure is a
  branch every C operation reports as `-1` without touching the table;
  it is not the subject of any claim).  The mutex of the C table is not
  modelled: every operation is a sequential state transformer.
* The caller-supplied deallocator is modelled as a flag `hasDealloc`
  together with an explicit event list: each operation returns the list
  of `(key, data)` pairs the C code would pass to the deallocator, in
  order, computed from the state the C code reads them from.
-/

/-- UINT64_MOD is the modulus of C `uint64_t` arithmetic. -/
def UINT64_MOD : Nat := 2 ^ 64

/-- UINT32_MOD is the modulus of C `uint32_t` arithmetic. -/
def UINT32_MOD : Nat := 2 ^ 32

/-- rotl64 models `(x << n) | (x >> (64 - n))` on `uint64_t` (0 < n < 64). -/
def rotl64 (x n : Nat) : Nat :=
  ((x <<< n) ||| (x >>> (64 - n))) % UINT64_MOD

/-- rotl32 models `(x << n) | (x >> (32 - n))` on `uint32_t` (0 < n < 32). -/
def rotl32 (x n : Nat) : Nat :=
  ((x <<< n) ||| (x >>> (32 - n))) % UINT32_MOD

/-- Model of `_ght_digestor_murmur3_64` from `ght.c`: the 64-bit Murmur3
mixing function applied to a single 64-bit block, with `uint64_t`
arithmetic made explicit via `% 2 ^ 64`. -/
def _ght_digestor_murmur3_64 (key seed : Nat) : Nat :=
  let c1 := 0x87c37b91114253d5
  let c2 := 0x4cf5ad432745937f
  let k1 := key % UINT64_MOD
  let k1 := k1 * c1 % UINT64_MOD
  let k1 := rotl64 k1 31
  let k1 := k1 * c2 % UINT64_MOD
  let hash := (seed % UINT64_MOD) ^^^ k1
  let hash := rotl64 hash 27
  let hash := (hash * 5 + 0x52dce729) % UINT64_MOD
  let hash := hash ^^^ 8
  let hash := hash ^^^ (hash >>> 33)
  let hash := hash * 0xff51afd7ed558ccd % UINT64_MOD
  let hash := hash ^^^ (hash >>> 33)
  let hash := hash * 0xc4ceb9fe1a85ec53 % UINT64_MOD
  let hash := hash ^^^ (hash >>> 33)
  hash

/-- Model of `_ght_digestor_murmur3_32` from `ght.c`: the 32-bit Murmur3
mixing function applied to a single 32-bit block. -/
def _ght_digestor_murmur3_32 (key seed : Nat) : Nat :=
  let c1 := 0xcc9e2d51
  let c2 := 0x1b873593
  let k1 := key % UINT32_MOD
  let k1 := k1 * c1 % UINT32_MOD
  let k1 := rotl32 k1 15
  let k1 := k1 * c2 % UINT32_MOD
  let hash := (seed % UINT32_MOD) ^^^ k1
  let hash := rotl32 hash 13
  let hash := (hash * 5 + 0xe6546b64) % UINT32_MOD
  let hash := hash ^^^ 4
  let hash := hash ^^^ (hash >>> 16)
  let hash := hash * 0x85ebca6b % UINT32_MOD
  let hash := hash ^^^ (hash >>> 13)
  let hash := hash * 0xc2b2ae35 % UINT32_MOD
  let hash := hash ^^^ (hash >>> 16)
  hash

/-- Model of `_ght_digestor_murmur3` from `ght.c`.  The `_Generic`
dispatch selects `_ght_digestor_murmur3_64` because `ght_key_t` is
`uintptr_t`, a 64-bit type on the LP64 targets this library is built
for; the seed constant is `0x9747b28c`. -/
def _ght_digestor_murmur3 (key : Nat) : Nat :=
  _ght_digestor_murmur3_64 key 0x9747b28c

/-- GHT_DEFAULT_WIDTH from `ght.c`. -/
def GHT_DEFAULT_WIDTH : Nat := 100

/-- Model of `ght_bucket_t`: one chain node, holding a key, the cached
hash of the key, and the data payload.  The `next` pointer is modelled
by the position of the node inside a `List Bucket` chain. -/
structure Bucket where
  key : Nat
  hash : Nat
  data : Nat
deriving DecidableEq, Repr

/-- Model of `ght_cfg_t`: the configuration passed to `ght_create`.  The
deallocator function pointer is modelled by the flag `hasDealloc`
(non-null or null); its invocations are tracked as explicit events. -/
structure Cfg where
  digestor : Option (Nat → Nat)
  hasDealloc : Bool
  width : Nat
  autoResize : ℚ

/-- Model of `ght_table_t` (minus the mutex, which only serializes
access and has no sequential semantics). -/
structure Table where
  digestor : Nat → Nat
  hasDealloc : Bool
  width : Nat
  autoResize : ℚ
  buckets : List (List Bucket)
  load : Nat

/-- Model of `ght_create`.  A null `cfg` pointer is `none`.  As in the C
source, a zero `cfg->width` is replaced by `GHT_DEFAULT_WIDTH` and a
null `cfg->digestor` by the built-in Murmur3; `calloc` of the table and
of the bucket array is modelled as always succeeding. -/
def ght_create (cfg : Option Cfg) : Table :=
  match cfg with
  | some c =>
      let w := if c.width = 0 then GHT_DEFAULT_WIDTH else c.width
      { digestor := c.digestor.getD _ght_digestor_murmur3
        hasDealloc := c.hasDealloc
        width := w
        autoResize := c.autoResize
        buckets := List.replicate w []
        load := 0 }
  | none =>
      { digestor := _ght_digestor_murmur3
        hasDealloc := false
        width := GHT_DEFAULT_WIDTH
        autoResize := 0
        buckets := List.replicate GHT_DEFAULT_WIDTH []
        load := 0 }

/-- chainSplit models the chain walk
`while (bucket && (key != bucket->key)) { prev = bucket; bucket = bucket->next; }`
shared by `ght_insert`, `ght_search` and `ght_delete`: it returns the
nodes passed over (`prev` side), the first node whose key matches, and
the remainder of the chain, or `none` when the walk falls off the end. -/
def chainSplit (key : Nat) : List Bucket → Option (List Bucket × Bucket × List Bucket)
  | [] => none
  | b :: bs =>
      if b.key = key then some ([], b, bs)
      else
        match chainSplit key bs with
        | some (front, c, rest) => some (b :: front, c, rest)
        | none => none

/-- Model of `_ght_move_recursive`: relink every node of one old chain
into the bucket array `acc` of the destination table of width `w`,
indexing by the node's cached hash.  The C function recurses to the tail
first, so the chain's head is relinked last; the returned count is the
number of nodes moved (the increments of `*moved`). -/
def _ght_move_recursive (w : Nat) : List Bucket → List (List Bucket) → List (List Bucket) × Nat
  | [], acc => (acc, 0)
  | b :: bs, acc =>
      let r := _ght_move_recursive w bs acc
      let index := b.hash % w
      (r.1.set index (b :: r.1.getD index []), r.2 + 1)

/-- Model of the `for` loop of `ght_resize`: move chains of the old
bucket array into `acc` while `moved < load`, stopping early once
`moved` reaches `load`. -/
def _ght_resize_loop (w load : Nat) : List (List Bucket) → Nat → List (List Bucket) → List (List Bucket)
  | [], _, acc => acc
  | c :: cs, moved, acc =>
      if moved < load then
        let r := _ght_move_recursive w c acc
        _ght_resize_loop w load cs (moved + r.2) r.1
      else acc

/-- Model of `ght_resize`: rejects a zero width with `-1`; otherwise
builds a fresh table of the requested width via `ght_create` (same
digestor and deallocator, auto-resize disabled in the scratch config),
relinks every node into it by cached hash, and installs the new bucket
array and width into the original table.  `load`, `digestor`,
`auto_resize` and the deallocator of the table are untouched. -/
def ght_resize (t : Table) (width : Nat) : Table × Int :=
  if width = 0 then (t, -1)
  else
    let newTable := ght_create (some { digestor := some t.digestor,
                                       hasDealloc := t.hasDealloc,
                                       width := width,
                                       autoResize := 0 })
    let newBuckets := _ght_resize_loop newTable.width t.load t.buckets 0 newTable.buckets
    ({ t with buckets := newBuckets, width := newTable.width }, 0)

/-- Model of `ght_insert`.  Returns the new table, the status, and the
list of `(key, data)` pairs passed to the deallocator.  When the key is
found, the old payload is handed to the deallocator (if any), the new
payload installed, and the node moved to the front of its chain; when
absent, the auto-resize trigger `(double)(load+1)/(double)width >
auto_resize` (exact rational arithmetic here) may first double the
width, then a fresh node with cached hash is linked at the front of its
chain and `load` incremented. -/
def ght_insert (t : Table) (key data : Nat) : Table × Int × List (Nat × Nat) :=
  let index := t.digestor key % t.width
  let chain := t.buckets.getD index []
  match chainSplit key chain with
  | some (front, b, rest) =>
      let events := if t.hasDealloc then [(b.key, b.data)] else []
      ({ t with buckets := t.buckets.set index ({ b with data := data } :: (front ++ rest)) },
       0, events)
  | none =>
      let t1 := if 0 < t.autoResize ∧ t.autoResize < ((t.load : ℚ) + 1) / (t.width : ℚ)
                then (ght_resize t (t.width * 2)).1 else t
      let hash := t1.digestor key
      let index1 := hash % t1.width
      ({ t1 with buckets := t1.buckets.set index1
                   ({ key := key, hash := hash, data := data } :: t1.buckets.getD index1 []),
                 load := t1.load + 1 },
       0, [])

/-- Model of `ght_search`: walks the chain selected by the digestor,
returns `0` when the key is absent, otherwise moves the matching node to
the front of its chain and returns its payload. -/
def ght_search (t : Table) (key : Nat) : Table × Nat :=
  let index := t.digestor key % t.width
  let chain := t.buckets.getD index []
  match chainSplit key chain with
  | none => (t, 0)
  | some (front, b, rest) =>
      ({ t with buckets := t.buckets.set index (b :: (front ++ rest)) }, b.data)

/-- Model of `ght_delete`: walks the chain, fails with `-1` when the key
is absent, otherwise unlinks the node, hands its payload to the
deallocator (if any), and decrements `load`. -/
def ght_delete (t : Table) (key : Nat) : Table × Int × List (Nat × Nat) :=
  let index := t.digestor key % t.width
  let chain := t.buckets.getD index []
  match chainSplit key chain with
  | none => (t, -1, [])
  | some (front, b, rest) =>
      let events := if t.hasDealloc then [(b.key, b.data)] else []
      ({ t with buckets := t.buckets.set index (front ++ rest), load := t.load - 1 },
       0, events)

/-- Model of `ght_load`. -/
def ght_load (t : Table) : Nat := t.load

/-- Model of `ght_width`. -/
def ght_width (t : Table) : Nat := t.width

/-- Model of `ght_load_factor` (exact rational in place of C `double`). -/
def ght_load_factor (t : Table) : ℚ :=
  if t.width = 0 then 0 else (t.load : ℚ) / (t.width : ℚ)

/-- nodesOf is the list of all live nodes reachable from the bucket
array, in chain order. -/
def nodesOf (t : Table) : List Bucket := t.buckets.flatten

/-- keysOf is the list of keys of all live nodes. -/
def keysOf (t : Table) : List Nat := (nodesOf t).map Bucket.key

/-- containsKey decides whether some live node carries the given key. -/
def containsKey (t : Table) (k : Nat) : Bool :=
  (nodesOf t).any (fun b => b.key == k)

/-- Op is one public mutating call on the table. -/
inductive Op where
  | insert (key data : Nat)
  | search (key : Nat)
  | delete (key : Nat)
  | resize (width : Nat)

/-- applyOp runs one operation, keeping the resulting table. -/
def applyOp (t : Table) : Op → Table
  | .insert k v => (ght_insert t k v).1
  | .search k => (ght_search t k).1
  | .delete k => (ght_delete t k).1
  | .resize w => (ght_resize t w).1

/-- runOps runs a sequence of operations from a starting table. -/
def runOps (t : Table) (ops : List Op) : Table := ops.foldl applyOp t

/-- Table.WF is the well-formedness invariant every reachable table
satisfies: positive width, bucket array of length `width`, every node
sitting in the chain selected by its cached hash, every cached hash
equal to the digestor of the node's key, no duplicate keys, and `load`
equal to the number of live nodes. -/
def Table.WF (t : Table) : Prop :=
  0 < t.width ∧
  t.buckets.length = t.width ∧
  (∀ i < t.buckets.length, ∀ b ∈ t.buckets.getD i [], b.hash % t.width = i) ∧
  (∀ b ∈ nodesOf t, b.hash = t.digestor b.key) ∧
  (keysOf t).Nodup ∧
  t.load = (nodesOf t).length

/-! ### Chain-walk lemmas -/

open List

theorem chainSplit_some {k : Nat} : ∀ {chain front rest : List Bucket} {b : Bucket},
    chainSplit k chain = some (front, b, rest) →
    chain = front ++ b :: rest ∧ b.key = k ∧ ∀ x ∈ front, x.key ≠ k := by
  intro chain
  induction chain with
  | nil => intro front rest b h; simp [chainSplit] at h
  | cons a as ih =>
    intro front rest b h
    by_cases ha : a.key = k
    · simp [chainSplit, ha] at h
      obtain ⟨h1, h2, h3⟩ := h
      subst h1; subst h2; subst h3
      exact ⟨rfl, ha, by simp⟩
    · simp only [chainSplit, if_neg ha] at h
      cases hs : chainSplit k as with
      | none => rw [hs] at h; simp at h
      | some v =>
        obtain ⟨f', c', r'⟩ := v
        rw [hs] at h
        simp at h
        obtain ⟨h1, h2, h3⟩ := h
        obtain ⟨e1, e2, e3⟩ := ih hs
        subst h1; subst h2; subst h3
        refine ⟨by simp [e1], e2, ?_⟩
        intro x hx
        rcases List.mem_cons.mp hx with hx | hx
        · subst hx; exact ha
        · exact e3 x hx

theorem chainSplit_none {k : Nat} : ∀ {chain : List Bucket},
    chainSplit k chain = none ↔ ∀ x ∈ chain, x.key ≠ k := by
  intro chain
  induction chain with
  | nil => simp [chainSplit]
  | cons a as ih =>
    by_cases ha : a.key = k
    · simp [chainSplit, ha]
    · simp only [chainSplit, if_neg ha]
      cases hs : chainSplit k as with
      | none => simpa [ha] using ih.mp hs
      | some v =>
        obtain ⟨f', c', r'⟩ := v
        simp only []
        constructor
        · intro h; simp at h
        · intro h
          exfalso
          have := (ih.mpr (fun x hx => h x (List.mem_cons_of_mem a hx)))
          rw [this] at hs; cases hs

theorem chainSplit_isSome_of_mem {k : Nat} {chain : List Bucket} {b : Bucket}
    (hb : b ∈ chain) (hk : b.key = k) :
    ∃ front c rest, chainSplit k chain = some (front, c, rest) := by
  cases hs : chainSplit k chain with
  | none => exact absurd hk (chainSplit_none.mp hs b hb)
  | some v => obtain ⟨f, c, r⟩ := v; exact ⟨f, c, r, rfl⟩

/-! ### Bucket-array lemmas -/

theorem getD_set_self {l : List (List Bucket)} {i : Nat} {c : List Bucket}
    (h : i < l.length) : (l.set i c).getD i [] = c := by
  induction l generalizing i with
  | nil => simp at h
  | cons x xs ih =>
    cases i with
    | zero => rfl
    | succ i => exact ih (by simpa using h)

theorem getD_set_ne {l : List (List Bucket)} {i j : Nat} {c : List Bucket}
    (h : i ≠ j) : (l.set i c).getD j [] = l.getD j [] := by
  induction l generalizing i j with
  | nil => simp
  | cons x xs ih =>
    cases i with
    | zero => cases j with
      | zero => exact absurd rfl h
      | succ j => rfl
    | succ i => cases j with
      | zero => rfl
      | succ j => exact ih (fun hh => h (by rw [hh]))

theorem mem_flatten_of_mem_getD {l : List (List Bucket)} {i : Nat} {b : Bucket}
    (hb : b ∈ l.getD i []) : b ∈ l.flatten := by
  induction l generalizing i with
  | nil => simp at hb
  | cons x xs ih =>
    cases i with
    | zero =>
      simp only [List.getD_cons_zero] at hb
      exact List.mem_flatten.mpr ⟨x, by simp, hb⟩
    | succ i =>
      have : b ∈ xs.flatten := ih (by simpa using hb)
      simp [List.mem_flatten] at this ⊢
      obtain ⟨s, hs1, hs2⟩ := this
      exact Or.inr ⟨s, hs1, hs2⟩

/-- join_parts: replacing the chain at a valid index `i` changes the
flattened node list only by swapping that chain's nodes for the new
chain's nodes, the rest `X` staying fixed. -/
theorem join_parts (l : List (List Bucket)) (i : Nat) (h : i < l.length) :
    ∃ X, l.flatten.Perm (l.getD i [] ++ X) ∧
      ∀ c, (l.set i c).flatten.Perm (c ++ X) := by
  induction l generalizing i with
  | nil => simp at h
  | cons x xs ih =>
    cases i with
    | zero =>
      refine ⟨xs.flatten, ?_, ?_⟩
      · simp
      · intro c; simp
    | succ i =>
      obtain ⟨X, h1, h2⟩ := ih i (by simpa using h)
      refine ⟨x ++ X, ?_, ?_⟩
      · calc (x :: xs).flatten = x ++ xs.flatten := by simp
          _ ~ x ++ (xs.getD i [] ++ X) := h1.append_left x
          _ = (x ++ xs.getD i []) ++ X := by rw [List.append_assoc]
          _ ~ (xs.getD i [] ++ x) ++ X := List.perm_append_comm.append_right X
          _ = xs.getD i [] ++ (x ++ X) := by rw [List.append_assoc]
      · intro c
        calc ((x :: xs).set (i + 1) c).flatten = x ++ (xs.set i c).flatten := by simp
          _ ~ x ++ (c ++ X) := (h2 c).append_left x
          _ = (x ++ c) ++ X := by rw [List.append_assoc]
          _ ~ (c ++ x) ++ X := List.perm_append_comm.append_right X
          _ = c ++ (x ++ X) := by rw [List.append_assoc]

/-! ### Well-formedness: accessors and basic consequences -/

theorem Table.WF.width_pos {t : Table} (wf : t.WF) : 0 < t.width := wf.1

theorem Table.WF.len {t : Table} (wf : t.WF) : t.buckets.length = t.width := wf.2.1

theorem Table.WF.placed {t : Table} (wf : t.WF) :
    ∀ i < t.buckets.length, ∀ b ∈ t.buckets.getD i [], b.hash % t.width = i := wf.2.2.1

theorem Table.WF.hashed {t : Table} (wf : t.WF) :
    ∀ b ∈ nodesOf t, b.hash = t.digestor b.key := wf.2.2.2.1

theorem Table.WF.keys_nodup {t : Table} (wf : t.WF) : (keysOf t).Nodup := wf.2.2.2.2.1

theorem Table.WF.load_eq {t : Table} (wf : t.WF) : t.load = (nodesOf t).length := wf.2.2.2.2.2

/-- Every live node sits in the chain selected by its cached hash, and
that index is a valid index of the bucket array. -/
theorem Table.WF.inChain {t : Table} (wf : t.WF) {b : Bucket} (hb : b ∈ nodesOf t) :
    b.hash % t.width < t.buckets.length ∧ b ∈ t.buckets.getD (b.hash % t.width) [] := by
  have hlt : b.hash % t.width < t.buckets.length := by
    rw [wf.len]; exact Nat.mod_lt _ wf.width_pos
  refine ⟨hlt, ?_⟩
  obtain ⟨s, hs, hbs⟩ := List.mem_flatten.mp hb
  obtain ⟨j, hj, hgj⟩ := List.getElem_of_mem hs
  have hgd : t.buckets.getD j [] = s := by
    rw [List.getD_eq_getElem?_getD, List.getElem?_eq_getElem hj, Option.getD_some, hgj]
  have : b.hash % t.width = j := wf.placed j hj b (by rw [hgd]; exact hbs)
  rw [this, hgd]; exact hbs

/-- containsKey is the boolean reflection of "some live node has key k". -/
theorem containsKey_iff {t : Table} {k : Nat} :
    containsKey t k = true ↔ ∃ b ∈ nodesOf t, b.key = k := by
  simp [containsKey]

theorem containsKey_false_iff {t : Table} {k : Nat} :
    containsKey t k = false ↔ ∀ b ∈ nodesOf t, b.key ≠ k := by
  simp [containsKey]

/-- ght_create always yields a well-formed table. -/
theorem create_WF (cfg : Option Cfg) : (ght_create cfg).WF := by
  have base : ∀ w, 0 < w → ∀ t : Table, t.buckets = List.replicate w [] → t.width = w →
      t.load = 0 → t.WF := by
    intro w hw t hb hwid hl
    refine ⟨by rw [hwid]; exact hw, by rw [hb, hwid]; simp, ?_, ?_, ?_, ?_⟩
    · intro i hi b hbmem
      rw [hb] at hbmem
      have : (List.replicate w ([] : List Bucket)).getD i [] = [] := by
        rcases Nat.lt_or_ge i w with h | h
        · rw [List.getD_eq_getElem?_getD, List.getElem?_eq_getElem (by simpa using h)]
          simp
        · rw [List.getD_eq_getElem?_getD, List.getElem?_eq_none (by simpa using h)]
          rfl
      rw [this] at hbmem; cases hbmem
    · intro b hbmem
      rw [nodesOf, hb] at hbmem
      simp at hbmem
    · rw [keysOf, nodesOf, hb]; simp
    · rw [nodesOf, hb]; simp [hl]
  cases cfg with
  | none => exact base GHT_DEFAULT_WIDTH (by decide) _ rfl rfl rfl
  | some c =>
    by_cases hw : c.width = 0
    · exact base GHT_DEFAULT_WIDTH (by decide) _ (by simp [ght_create, hw]) (by simp [ght_create, hw]) rfl
    · exact base c.width (Nat.pos_of_ne_zero hw) _ (by simp [ght_create, hw]) (by simp [ght_create, hw]) rfl

/-! ### Unfolding equations for the public operations -/

theorem ght_search_eq_none {t : Table} {k : Nat}
    (hsplit : chainSplit k (t.buckets.getD (t.digestor k % t.width) []) = none) :
    ght_search t k = (t, 0) := by
  simp only [ght_search, hsplit]

theorem ght_search_eq_found {t : Table} {k : Nat} {front rest : List Bucket} {b : Bucket}
    (hsplit : chainSplit k (t.buckets.getD (t.digestor k % t.width) []) = some (front, b, rest)) :
    ght_search t k =
      ({ t with buckets := t.buckets.set (t.digestor k % t.width) (b :: (front ++ rest)) },
       b.data) := by
  simp only [ght_search, hsplit]

theorem ght_delete_eq_none {t : Table} {k : Nat}
    (hsplit : chainSplit k (t.buckets.getD (t.digestor k % t.width) []) = none) :
    ght_delete t k = (t, -1, []) := by
  simp only [ght_delete, hsplit]

theorem ght_delete_eq_found {t : Table} {k : Nat} {front rest : List Bucket} {b : Bucket}
    (hsplit : chainSplit k (t.buckets.getD (t.digestor k % t.width) []) = some (front, b, rest)) :
    ght_delete t k =
      ({ t with buckets := t.buckets.set (t.digestor k % t.width) (front ++ rest),
                load := t.load - 1 },
       0, if t.hasDealloc then [(b.key, b.data)] else []) := by
  simp only [ght_delete, hsplit]

theorem ght_insert_eq_found {t : Table} {k v : Nat} {front rest : List Bucket} {b : Bucket}
    (hsplit : chainSplit k (t.buckets.getD (t.digestor k % t.width) []) = some (front, b, rest)) :
    ght_insert t k v =
      ({ t with buckets := t.buckets.set (t.digestor k % t.width)
                  ({ b with data := v } :: (front ++ rest)) },
       0, if t.hasDealloc then [(b.key, b.data)] else []) := by
  simp only [ght_insert, hsplit]

theorem ght_insert_eq_new {t : Table} {k v : Nat} {t1 : Table}
    (hsplit : chainSplit k (t.buckets.getD (t.digestor k % t.width) []) = none)
    (ht1 : t1 = (if 0 < t.autoResize ∧ t.autoResize < ((t.load : ℚ) + 1) / (t.width : ℚ)
                 then (ght_resize t (t.width * 2)).1 else t)) :
    ght_insert t k v =
      ({ t1 with buckets := t1.buckets.set (t1.digestor k % t1.width)
                   ({ key := k, hash := t1.digestor k, data := v }
                     :: t1.buckets.getD (t1.digestor k % t1.width) [])
                 load := t1.load + 1 },
       0, []) := by
  subst ht1
  simp only [ght_insert, hsplit]

/-! ### Well-formedness reassembly after a single-chain update -/

/-- set_chain_WF: replacing chain `i` by a chain `c` whose nodes belong
at index `i` and carry correct cached hashes, with no duplicate keys
overall and the load set to the new node count, keeps the invariant. -/
theorem set_chain_WF {t : Table} (wf : t.WF) {i : Nat} (hi : i < t.buckets.length)
    {c X : List Bucket} {newload : Nat}
    (hX1 : nodesOf t ~ t.buckets.getD i [] ++ X)
    (hX2 : (t.buckets.set i c).flatten ~ c ++ X)
    (hplace : ∀ b ∈ c, b.hash % t.width = i)
    (hhash : ∀ b ∈ c, b.hash = t.digestor b.key)
    (hnodup : ((c ++ X).map Bucket.key).Nodup)
    (hload : newload = (c ++ X).length) :
    Table.WF { t with buckets := t.buckets.set i c, load := newload } := by
  refine ⟨wf.width_pos, ?_, ?_, ?_, ?_, ?_⟩
  · show (t.buckets.set i c).length = t.width
    rw [List.length_set]; exact wf.len
  · intro j hj b hb
    show b.hash % t.width = j
    rw [List.length_set] at hj
    by_cases hij : i = j
    · subst hij
      rw [getD_set_self hi] at hb
      exact hplace b hb
    · rw [getD_set_ne hij] at hb
      exact wf.placed j hj b hb
  · intro b hb
    show b.hash = t.digestor b.key
    have hb' : b ∈ c ++ X := hX2.mem_iff.mp hb
    rcases List.mem_append.mp hb' with h | h
    · exact hhash b h
    · have : b ∈ nodesOf t := hX1.mem_iff.mpr (List.mem_append.mpr (Or.inr h))
      exact wf.hashed b this
  · show ((t.buckets.set i c).flatten.map Bucket.key).Nodup
    exact ((hX2.map Bucket.key).nodup_iff).mpr hnodup
  · show newload = (t.buckets.set i c).flatten.length
    rw [hload, hX2.length_eq]

/-! ### Locating a present key -/

/-- The node a chain walk finds for key `k` is the unique live node with
key `k`. -/
theorem found_eq_mem {t : Table} (wf : t.WF) {k : Nat} {b bb : Bucket}
    {front rest : List Bucket} (hb : b ∈ nodesOf t) (hk : b.key = k)
    (hsplit : chainSplit k (t.buckets.getD (t.digestor k % t.width) []) = some (front, bb, rest)) :
    bb = b := by
  have hhash : b.hash = t.digestor k := by rw [wf.hashed b hb, hk]
  obtain ⟨hi, hmem⟩ := wf.inChain hb
  rw [hhash] at hi hmem
  obtain ⟨hchain, hbbk, hfront⟩ := chainSplit_some hsplit
  obtain ⟨X, hX1, -⟩ := join_parts t.buckets (t.digestor k % t.width) hi
  have hnodup : ((t.buckets.getD (t.digestor k % t.width) [] ++ X).map Bucket.key).Nodup :=
    (hX1.map Bucket.key).nodup_iff.mp wf.keys_nodup
  rw [List.map_append] at hnodup
  have hchain_nodup := hnodup.of_append_left
  rw [hchain] at hmem hchain_nodup
  rcases List.mem_append.mp hmem with h | h
  · exact absurd hk (hfront b h)
  · rcases List.mem_cons.mp h with h | h
    · exact h.symm
    · exfalso
      rw [List.map_append] at hchain_nodup
      have h2 := hchain_nodup.of_append_right
      rw [List.map_cons, List.nodup_cons] at h2
      exact h2.1 (by rw [hbbk, ← hk]; exact List.mem_map_of_mem Bucket.key h)

/-! ### Specification of ght_search -/

/-- search on an absent key returns the sentinel `0` and leaves the
table untouched. -/
theorem search_not_found {t : Table} {k : Nat} (habs : ∀ b ∈ nodesOf t, b.key ≠ k) :
    ght_search t k = (t, 0) :=
  ght_search_eq_none (chainSplit_none.mpr
    (fun x hx => habs x (mem_flatten_of_mem_getD hx)))

/-- search on a present key returns that node's payload and permutes
one chain (move-to-front), preserving well-formedness, the node
multiset, and every scalar field. -/
theorem search_found {t : Table} (wf : t.WF) {k : Nat} {b : Bucket}
    (hb : b ∈ nodesOf t) (hk : b.key = k) :
    (ght_search t k).2 = b.data ∧ (ght_search t k).1.WF ∧
    nodesOf (ght_search t k).1 ~ nodesOf t ∧
    (ght_search t k).1.width = t.width ∧ (ght_search t k).1.load = t.load ∧
    (ght_search t k).1.digestor = t.digestor ∧
    (ght_search t k).1.hasDealloc = t.hasDealloc ∧
    (ght_search t k).1.autoResize = t.autoResize := by
  have hhash : b.hash = t.digestor k := by rw [wf.hashed b hb, hk]
  obtain ⟨hi, hmem⟩ := wf.inChain hb
  rw [hhash] at hi hmem
  obtain ⟨front, bb, rest, hsplit⟩ := chainSplit_isSome_of_mem hmem hk
  have hbb : bb = b := found_eq_mem wf hb hk hsplit
  subst hbb
  obtain ⟨hchain, hbbk, hfront⟩ := chainSplit_some hsplit
  obtain ⟨X, hX1, hX2⟩ := join_parts t.buckets (t.digestor k % t.width) hi
  have hcperm : (bb :: (front ++ rest)) ~ t.buckets.getD (t.digestor k % t.width) [] := by
    rw [hchain]; exact List.perm_middle.symm
  have hmm : ∀ x ∈ bb :: (front ++ rest),
      x ∈ t.buckets.getD (t.digestor k % t.width) [] := fun x hx => hcperm.mem_iff.mp hx
  have happ : (bb :: (front ++ rest)) ++ X ~
      t.buckets.getD (t.digestor k % t.width) [] ++ X := hcperm.append_right X
  rw [ght_search_eq_found hsplit]
  have hwf2 : Table.WF { t with
      buckets := t.buckets.set (t.digestor k % t.width) (bb :: (front ++ rest)),
      load := t.load } := by
    refine set_chain_WF wf hi hX1 (hX2 _) ?_ ?_ ?_ ?_
    · intro x hx
      exact wf.placed _ hi x (hmm x hx)
    · intro x hx
      exact wf.hashed x (mem_flatten_of_mem_getD (hmm x hx))
    · exact ((happ.map Bucket.key).nodup_iff).mpr ((hX1.map Bucket.key).nodup_iff.mp wf.keys_nodup)
    · rw [happ.length_eq, ← hX1.length_eq, wf.load_eq]; rfl
  exact ⟨rfl, hwf2, ((hX2 _).trans (happ.trans hX1.symm)), rfl, rfl, rfl, rfl, rfl⟩

/-! ### Specification of ght_resize -/

theorem getD_replicate {w i : Nat} : (List.replicate w ([] : List Bucket)).getD i [] = [] := by
  induction w generalizing i with
  | zero => simp
  | succ w ih =>
    cases i with
    | zero => rfl
    | succ i => exact ih

theorem flatten_set_cons {l : List (List Bucket)} {i : Nat} (h : i < l.length) (b : Bucket) :
    (l.set i (b :: l.getD i [])).flatten ~ b :: l.flatten := by
  obtain ⟨X, h1, h2⟩ := join_parts l i h
  calc (l.set i (b :: l.getD i [])).flatten ~ (b :: l.getD i []) ++ X := h2 _
    _ = b :: (l.getD i [] ++ X) := rfl
    _ ~ b :: l.flatten := (h1.symm.cons b)

/-- Moving one chain into the destination bucket array adds exactly its
nodes, counts them, and keeps every node in the chain its cached hash
selects. -/
theorem move_recursive_spec {w : Nat} (hw : 0 < w) :
    ∀ (c : List Bucket) (acc : List (List Bucket)), acc.length = w →
    (_ght_move_recursive w c acc).1.length = w ∧
    (_ght_move_recursive w c acc).2 = c.length ∧
    (_ght_move_recursive w c acc).1.flatten ~ c ++ acc.flatten ∧
    ((∀ i < w, ∀ b ∈ acc.getD i [], b.hash % w = i) →
      ∀ i < w, ∀ b ∈ (_ght_move_recursive w c acc).1.getD i [], b.hash % w = i) := by
  intro c
  induction c with
  | nil => intro acc hlen; exact ⟨hlen, rfl, by simp [_ght_move_recursive], fun h => h⟩
  | cons b bs ih =>
    intro acc hlen
    obtain ⟨ilen, icnt, iperm, iplaced⟩ := ih acc hlen
    have hidx : b.hash % w < (_ght_move_recursive w bs acc).1.length := by
      rw [ilen]; exact Nat.mod_lt _ hw
    refine ⟨?_, ?_, ?_, ?_⟩
    · show (List.set _ _ _).length = w
      rw [List.length_set]; exact ilen
    · show (_ght_move_recursive w bs acc).2 + 1 = bs.length + 1
      rw [icnt]
    · calc (_ght_move_recursive w (b :: bs) acc).1.flatten
          ~ b :: (_ght_move_recursive w bs acc).1.flatten := flatten_set_cons hidx b
        _ ~ b :: (bs ++ acc.flatten) := iperm.cons b
        _ = (b :: bs) ++ acc.flatten := rfl
    · intro hacc i hi x hx
      by_cases hij : b.hash % w = i
      · rw [show (_ght_move_recursive w (b :: bs) acc).1
              = (_ght_move_recursive w bs acc).1.set (b.hash % w)
                  (b :: (_ght_move_recursive w bs acc).1.getD (b.hash % w) []) from rfl,
            hij, getD_set_self (by rw [← hij]; exact hidx)] at hx
        rcases List.mem_cons.mp hx with hx | hx
        · subst hx; exact hij
        · exact iplaced hacc i hi x (by rw [← hij] at hx ⊢; exact hx)
      · rw [show (_ght_move_recursive w (b :: bs) acc).1
              = (_ght_move_recursive w bs acc).1.set (b.hash % w)
                  (b :: (_ght_move_recursive w bs acc).1.getD (b.hash % w) []) from rfl,
            getD_set_ne hij] at hx
        exact iplaced hacc i hi x hx

/-- The resize relinking loop moves every node: its early exit can only
trigger once the remaining chains are all empty. -/
theorem resize_loop_spec {w load : Nat} (hw : 0 < w) :
    ∀ (cs : List (List Bucket)) (moved : Nat) (acc : List (List Bucket)),
    acc.length = w →
    moved + (cs.map List.length).sum = load →
    (_ght_resize_loop w load cs moved acc).length = w ∧
    (_ght_resize_loop w load cs moved acc).flatten ~ cs.flatten ++ acc.flatten ∧
    ((∀ i < w, ∀ b ∈ acc.getD i [], b.hash % w = i) →
      ∀ i < w, ∀ b ∈ (_ght_resize_loop w load cs moved acc).getD i [], b.hash % w = i) := by
  intro cs
  induction cs with
  | nil => intro moved acc hlen _; exact ⟨hlen, by simp [_ght_resize_loop], fun h => h⟩
  | cons c cs ih =>
    intro moved acc hlen hsum
    by_cases hlt : moved < load
    · simp only [_ght_resize_loop, if_pos hlt]
      obtain ⟨mlen, mcnt, mperm, mplaced⟩ := move_recursive_spec hw c acc hlen
      have hsum' : (moved + (_ght_move_recursive w c acc).2) + (cs.map List.length).sum = load := by
        rw [mcnt]
        rw [List.map_cons, List.sum_cons, ← Nat.add_assoc] at hsum
        exact hsum
      obtain ⟨llen, lperm, lplaced⟩ := ih (moved + (_ght_move_recursive w c acc).2)
        (_ght_move_recursive w c acc).1 mlen hsum'
      refine ⟨llen, ?_, fun hacc => lplaced (mplaced hacc)⟩
      calc (_ght_resize_loop w load cs (moved + (_ght_move_recursive w c acc).2)
              (_ght_move_recursive w c acc).1).flatten
          ~ cs.flatten ++ (_ght_move_recursive w c acc).1.flatten := lperm
        _ ~ cs.flatten ++ (c ++ acc.flatten) := mperm.append_left cs.flatten
        _ = (cs.flatten ++ c) ++ acc.flatten := by rw [List.append_assoc]
        _ ~ (c ++ cs.flatten) ++ acc.flatten := List.perm_append_comm.append_right _
        _ = (c :: cs).flatten ++ acc.flatten := by simp
    · simp only [_ght_resize_loop, if_neg hlt]
      have hmv : moved = load := by omega
      have hz : (c :: cs).flatten.length = 0 := by
        rw [List.length_flatten]; omega
      have hnil : (c :: cs).flatten = [] := List.length_eq_zero.mp hz
      exact ⟨hlen, by rw [hnil]; simp, fun h => h⟩

/-- resize with a positive width succeeds, preserving the node multiset,
the load, and every field other than the bucket array and width. -/
theorem resize_spec {t : Table} (wf : t.WF) {w : Nat} (hw : w ≠ 0) :
    (ght_resize t w).2 = 0 ∧ (ght_resize t w).1.WF ∧
    nodesOf (ght_resize t w).1 ~ nodesOf t ∧
    (ght_resize t w).1.width = w ∧
    (ght_resize t w).1.load = t.load ∧
    (ght_resize t w).1.digestor = t.digestor ∧
    (ght_resize t w).1.hasDealloc = t.hasDealloc ∧
    (ght_resize t w).1.autoResize = t.autoResize := by
  have hw0 : 0 < w := Nat.pos_of_ne_zero hw
  have hnew : ght_create (some { digestor := some t.digestor
                                 hasDealloc := t.hasDealloc
                                 width := w
                                 autoResize := 0 }) =
      { digestor := t.digestor
        hasDealloc := t.hasDealloc
        width := w
        autoResize := 0
        buckets := List.replicate w []
        load := 0 } := by
    simp [ght_create, hw]
  have hsum : 0 + (t.buckets.map List.length).sum = t.load := by
    rw [wf.load_eq, nodesOf, List.length_flatten]; omega
  obtain ⟨llen, lperm, lplaced⟩ := resize_loop_spec hw0 t.buckets 0
    (List.replicate w []) (by simp) hsum
  have hflatrep : (List.replicate w ([] : List Bucket)).flatten = [] := by
    induction w with
    | zero => rfl
    | succ n ih => simp [List.replicate_succ, ih]
  have hres : ght_resize t w =
      ({ t with buckets := _ght_resize_loop w t.load t.buckets 0 (List.replicate w [])
                width := w }, 0) := by
    simp only [ght_resize, if_neg hw, hnew]
  have hperm : (_ght_resize_loop w t.load t.buckets 0 (List.replicate w [])).flatten
      ~ t.buckets.flatten := by
    refine lperm.trans ?_
    rw [hflatrep, List.append_nil]
  rw [hres]
  refine ⟨rfl, ?_, hperm, rfl, rfl, rfl, rfl, rfl⟩
  refine ⟨hw0, llen, ?_, ?_, ?_, ?_⟩
  · intro i hi b hb
    rw [llen] at hi
    exact lplaced (fun j hj bb hbb => by rw [getD_replicate] at hbb; cases hbb) i hi b hb
  · intro b hb
    exact wf.hashed b (hperm.mem_iff.mp hb)
  · exact ((hperm.map Bucket.key).nodup_iff).mpr wf.keys_nodup
  · exact wf.load_eq.trans hperm.length_eq.symm

/-! ### Specification of ght_insert -/

/-- insert on a present key overwrites that node\'s payload in place,
reports the old payload to the deallocator, moves the node to the front
of its chain, and leaves load and width untouched. -/
theorem insert_found {t : Table} (wf : t.WF) {k : Nat} (v : Nat) {b : Bucket}
    (hb : b ∈ nodesOf t) (hk : b.key = k) :
    ∃ X, nodesOf t ~ b :: X ∧
    (ght_insert t k v).2.1 = 0 ∧
    (ght_insert t k v).2.2 = (if t.hasDealloc then [(k, b.data)] else []) ∧
    (ght_insert t k v).1.WF ∧
    nodesOf (ght_insert t k v).1 ~ { b with data := v } :: X ∧
    (ght_insert t k v).1.width = t.width ∧
    (ght_insert t k v).1.load = t.load ∧
    (ght_insert t k v).1.digestor = t.digestor ∧
    (ght_insert t k v).1.hasDealloc = t.hasDealloc ∧
    (ght_insert t k v).1.autoResize = t.autoResize := by
  have hhash : b.hash = t.digestor k := by rw [wf.hashed b hb, hk]
  obtain ⟨hi, hmem⟩ := wf.inChain hb
  rw [hhash] at hi hmem
  obtain ⟨front, bb, rest, hsplit⟩ := chainSplit_isSome_of_mem hmem hk
  have hbb : bb = b := found_eq_mem wf hb hk hsplit
  subst hbb
  obtain ⟨hchain, hbbk, hfront⟩ := chainSplit_some hsplit
  obtain ⟨X0, hX1, hX2⟩ := join_parts t.buckets (t.digestor k % t.width) hi
  have hoperm : t.buckets.getD (t.digestor k % t.width) [] ~ bb :: (front ++ rest) := by
    rw [hchain]; exact List.perm_middle
  have hnodesperm : nodesOf t ~ bb :: ((front ++ rest) ++ X0) :=
    hX1.trans (hoperm.append_right X0)
  have hsub : ∀ x ∈ { bb with data := v } :: (front ++ rest),
      x.hash % t.width = t.digestor k % t.width ∧ x.hash = t.digestor x.key := by
    intro x hx
    rcases List.mem_cons.mp hx with hx | hx
    · subst hx
      exact ⟨wf.placed _ hi bb hmem, wf.hashed bb (mem_flatten_of_mem_getD hmem)⟩
    · have hxc : x ∈ t.buckets.getD (t.digestor k % t.width) [] :=
        hoperm.mem_iff.mpr (List.mem_cons_of_mem bb hx)
      exact ⟨wf.placed _ hi x hxc, wf.hashed x (mem_flatten_of_mem_getD hxc)⟩
  have hkperm : ((({ bb with data := v } :: (front ++ rest)) ++ X0).map Bucket.key) ~
      ((t.buckets.getD (t.digestor k % t.width) [] ++ X0).map Bucket.key) := by
    rw [List.map_append, List.map_append]
    exact List.Perm.append_right _ ((hoperm.map Bucket.key).symm)
  have hnodup : ((({ bb with data := v } :: (front ++ rest)) ++ X0).map Bucket.key).Nodup :=
    hkperm.nodup_iff.mpr ((hX1.map Bucket.key).nodup_iff.mp wf.keys_nodup)
  have hload : t.load = (({ bb with data := v } :: (front ++ rest)) ++ X0).length := by
    rw [wf.load_eq, nodesOf, hX1.length_eq, hchain]
    simp only [List.length_append, List.length_cons]
    omega
  refine ⟨(front ++ rest) ++ X0, hnodesperm, ?_, ?_, ?_, ?_, ?_, ?_, ?_, ?_, ?_⟩
  · rw [ght_insert_eq_found hsplit]
  · rw [ght_insert_eq_found hsplit, hbbk]
  · rw [ght_insert_eq_found hsplit]
    exact set_chain_WF wf hi hX1 (hX2 _) (fun x hx => (hsub x hx).1)
      (fun x hx => (hsub x hx).2) hnodup hload
  · rw [ght_insert_eq_found hsplit]
    exact hX2 _
  · rw [ght_insert_eq_found hsplit]
  · rw [ght_insert_eq_found hsplit]
  · rw [ght_insert_eq_found hsplit]
  · rw [ght_insert_eq_found hsplit]
  · rw [ght_insert_eq_found hsplit]

/-- insert_prepend: the common tail of insert on an absent key, stated
relative to the intermediate table `t1` (the table after the optional
auto-resize). -/
theorem insert_prepend {t : Table} (t1 : Table) {k : Nat} (v : Nat)
    (hsplit : chainSplit k (t.buckets.getD (t.digestor k % t.width) []) = none)
    (ht1 : t1 = (if 0 < t.autoResize ∧ t.autoResize < ((t.load : ℚ) + 1) / (t.width : ℚ)
                 then (ght_resize t (t.width * 2)).1 else t))
    (wf1 : t1.WF) (hperm1 : nodesOf t1 ~ nodesOf t)
    (habs : ∀ b ∈ nodesOf t, b.key ≠ k) (hdig : t1.digestor = t.digestor) :
    (ght_insert t k v).2.1 = 0 ∧ (ght_insert t k v).2.2 = [] ∧
    (ght_insert t k v).1.WF ∧
    nodesOf (ght_insert t k v).1 ~
      { key := k, hash := t.digestor k, data := v } :: nodesOf t ∧
    (ght_insert t k v).1.width = t1.width ∧
    (ght_insert t k v).1.load = t1.load + 1 ∧
    (ght_insert t k v).1.digestor = t.digestor ∧
    (ght_insert t k v).1.hasDealloc = t1.hasDealloc ∧
    (ght_insert t k v).1.autoResize = t1.autoResize := by
  have hi1 : t1.digestor k % t1.width < t1.buckets.length := by
    rw [wf1.len]; exact Nat.mod_lt _ wf1.width_pos
  obtain ⟨X0, hX1, hX2⟩ := join_parts t1.buckets (t1.digestor k % t1.width) hi1
  have habs1 : ∀ b ∈ nodesOf t1, b.key ≠ k := fun b hb => habs b (hperm1.mem_iff.mp hb)
  have hchainsub : ∀ x ∈ t1.buckets.getD (t1.digestor k % t1.width) [] ++ X0,
      x ∈ nodesOf t1 := by
    intro x hx
    exact hX1.mem_iff.mpr hx
  have hnodup : ((({ key := k, hash := t1.digestor k, data := v } ::
      t1.buckets.getD (t1.digestor k % t1.width) []) ++ X0).map Bucket.key).Nodup := by
    rw [show (({ key := k, hash := t1.digestor k, data := v } ::
        t1.buckets.getD (t1.digestor k % t1.width) []) ++ X0)
        = { key := k, hash := t1.digestor k, data := v } ::
          (t1.buckets.getD (t1.digestor k % t1.width) [] ++ X0) from rfl,
      List.map_cons, List.nodup_cons]
    constructor
    · intro hmem
      obtain ⟨x, hx, hxk⟩ := List.mem_map.mp hmem
      exact habs1 x (hchainsub x hx) hxk
    · exact (hX1.map Bucket.key).nodup_iff.mp wf1.keys_nodup
  have hload : t1.load + 1 = (({ key := k, hash := t1.digestor k, data := v } ::
      t1.buckets.getD (t1.digestor k % t1.width) []) ++ X0).length := by
    have h1 : (nodesOf t1).length = (t1.buckets.getD (t1.digestor k % t1.width) [] ++ X0).length :=
      hX1.length_eq
    rw [wf1.load_eq]
    simp only [List.length_append, List.length_cons] at h1 ⊢
    omega
  have hwf2 : Table.WF { t1 with
      buckets := t1.buckets.set (t1.digestor k % t1.width)
        ({ key := k, hash := t1.digestor k, data := v } ::
          t1.buckets.getD (t1.digestor k % t1.width) [])
      load := t1.load + 1 } := by
    refine set_chain_WF wf1 hi1 hX1 (hX2 _) ?_ ?_ hnodup hload
    · intro x hx
      rcases List.mem_cons.mp hx with hx | hx
      · subst hx; rfl
      · exact wf1.placed _ hi1 x hx
    · intro x hx
      rcases List.mem_cons.mp hx with hx | hx
      · subst hx; rfl
      · exact wf1.hashed x (mem_flatten_of_mem_getD hx)
  have hperm2 : nodesOf { t1 with
      buckets := t1.buckets.set (t1.digestor k % t1.width)
        ({ key := k, hash := t1.digestor k, data := v } ::
          t1.buckets.getD (t1.digestor k % t1.width) [])
      load := t1.load + 1 } ~
      { key := k, hash := t.digestor k, data := v } :: nodesOf t := by
    show (t1.buckets.set (t1.digestor k % t1.width) _).flatten ~ _
    refine (flatten_set_cons hi1 _).trans ?_
    rw [hdig]
    exact List.Perm.cons _ hperm1
  rw [ght_insert_eq_new hsplit ht1]
  exact ⟨rfl, rfl, hwf2, hperm2, rfl, rfl, by rw [← hdig], rfl, rfl⟩

/-- insert on an absent key links a fresh node carrying the digestor's
hash, increments load, reports nothing to the deallocator, and doubles
the width exactly when the auto-resize trigger fires. -/
theorem insert_new {t : Table} (wf : t.WF) {k : Nat} (v : Nat)
    (habs : ∀ b ∈ nodesOf t, b.key ≠ k) :
    (ght_insert t k v).2.1 = 0 ∧ (ght_insert t k v).2.2 = [] ∧
    (ght_insert t k v).1.WF ∧
    nodesOf (ght_insert t k v).1 ~
      { key := k, hash := t.digestor k, data := v } :: nodesOf t ∧
    (ght_insert t k v).1.width =
      (if 0 < t.autoResize ∧ t.autoResize < ((t.load : ℚ) + 1) / (t.width : ℚ)
       then t.width * 2 else t.width) ∧
    (ght_insert t k v).1.load = t.load + 1 ∧
    (ght_insert t k v).1.digestor = t.digestor ∧
    (ght_insert t k v).1.hasDealloc = t.hasDealloc ∧
    (ght_insert t k v).1.autoResize = t.autoResize := by
  have hsplit : chainSplit k (t.buckets.getD (t.digestor k % t.width) []) = none :=
    chainSplit_none.mpr (fun x hx => habs x (mem_flatten_of_mem_getD hx))
  by_cases hcond : 0 < t.autoResize ∧ t.autoResize < ((t.load : ℚ) + 1) / (t.width : ℚ)
  · have hw2 : t.width * 2 ≠ 0 := by
      have := wf.width_pos; omega
    obtain ⟨-, rwf, rperm, rwidth, rload, rdig, rhd, rar⟩ := resize_spec wf hw2
    obtain ⟨h1, h2, h3, h4, h5, h6, h7, h8, h9⟩ :=
      insert_prepend (ght_resize t (t.width * 2)).1 v hsplit (by rw [if_pos hcond])
        rwf rperm habs rdig
    rw [if_pos hcond]
    exact ⟨h1, h2, h3, h4, by rw [h5, rwidth], by rw [h6, rload], h7,
      by rw [h8, rhd], by rw [h9, rar]⟩
  · obtain ⟨h1, h2, h3, h4, h5, h6, h7, h8, h9⟩ :=
      insert_prepend t v hsplit (by rw [if_neg hcond]) wf (List.Perm.refl _) habs rfl
    rw [if_neg hcond]
    exact ⟨h1, h2, h3, h4, h5, h6, h7, h8, h9⟩

/-! ### Specification of ght_delete -/

/-- delete on an absent key fails with `-1` and returns the table
entirely unchanged, with no deallocator invocation. -/
theorem delete_not_found {t : Table} {k : Nat} (habs : ∀ b ∈ nodesOf t, b.key ≠ k) :
    ght_delete t k = (t, -1, []) :=
  ght_delete_eq_none (chainSplit_none.mpr
    (fun x hx => habs x (mem_flatten_of_mem_getD hx)))

/-- delete on a present key unlinks that node, reports its payload to
the deallocator, and decrements load. -/
theorem delete_found {t : Table} (wf : t.WF) {k : Nat} {b : Bucket}
    (hb : b ∈ nodesOf t) (hk : b.key = k) :
    ∃ X, nodesOf t ~ b :: X ∧
    (ght_delete t k).2.1 = 0 ∧
    (ght_delete t k).2.2 = (if t.hasDealloc then [(k, b.data)] else []) ∧
    (ght_delete t k).1.WF ∧
    nodesOf (ght_delete t k).1 ~ X ∧
    (ght_delete t k).1.width = t.width ∧
    (ght_delete t k).1.load = t.load - 1 ∧
    (ght_delete t k).1.digestor = t.digestor ∧
    (ght_delete t k).1.hasDealloc = t.hasDealloc ∧
    (ght_delete t k).1.autoResize = t.autoResize := by
  have hhash : b.hash = t.digestor k := by rw [wf.hashed b hb, hk]
  obtain ⟨hi, hmem⟩ := wf.inChain hb
  rw [hhash] at hi hmem
  obtain ⟨front, bb, rest, hsplit⟩ := chainSplit_isSome_of_mem hmem hk
  have hbb : bb = b := found_eq_mem wf hb hk hsplit
  subst hbb
  obtain ⟨hchain, hbbk, hfront⟩ := chainSplit_some hsplit
  obtain ⟨X0, hX1, hX2⟩ := join_parts t.buckets (t.digestor k % t.width) hi
  have hoperm : t.buckets.getD (t.digestor k % t.width) [] ~ bb :: (front ++ rest) := by
    rw [hchain]; exact List.perm_middle
  have hnodesperm : nodesOf t ~ bb :: ((front ++ rest) ++ X0) :=
    hX1.trans (hoperm.append_right X0)
  have hsubl : ((front ++ rest) ++ X0) <+ (t.buckets.getD (t.digestor k % t.width) [] ++ X0) := by
    rw [hchain]
    exact ((rest.sublist_cons_self bb).append_left front).append_right X0
  have hnodup : (((front ++ rest) ++ X0).map Bucket.key).Nodup :=
    (hsubl.map Bucket.key).nodup ((hX1.map Bucket.key).nodup_iff.mp wf.keys_nodup)
  have hload : t.load - 1 = ((front ++ rest) ++ X0).length := by
    have h1 : (nodesOf t).length = (t.buckets.getD (t.digestor k % t.width) [] ++ X0).length :=
      hX1.length_eq
    rw [wf.load_eq]
    rw [hchain] at h1
    simp only [List.length_append, List.length_cons] at h1 ⊢
    omega
  refine ⟨(front ++ rest) ++ X0, hnodesperm, ?_, ?_, ?_, ?_, ?_, ?_, ?_, ?_, ?_⟩
  · rw [ght_delete_eq_found hsplit]
  · rw [ght_delete_eq_found hsplit, hbbk]
  · rw [ght_delete_eq_found hsplit]
    refine set_chain_WF wf hi hX1 (hX2 _) ?_ ?_ hnodup hload
    · intro x hx
      have hxc : x ∈ t.buckets.getD (t.digestor k % t.width) [] :=
        hoperm.mem_iff.mpr (List.mem_cons_of_mem bb hx)
      exact wf.placed _ hi x hxc
    · intro x hx
      have hxc : x ∈ t.buckets.getD (t.digestor k % t.width) [] :=
        hoperm.mem_iff.mpr (List.mem_cons_of_mem bb hx)
      exact wf.hashed x (mem_flatten_of_mem_getD hxc)
  · rw [ght_delete_eq_found hsplit]
    exact hX2 _
  · rw [ght_delete_eq_found hsplit]
  · rw [ght_delete_eq_found hsplit]
  · rw [ght_delete_eq_found hsplit]
  · rw [ght_delete_eq_found hsplit]
  · rw [ght_delete_eq_found hsplit]

/-! ### Reachability: every table obtained from create is well-formed -/

theorem applyOp_WF {t : Table} (wf : t.WF) (op : Op) : (applyOp t op).WF := by
  cases op with
  | insert k v =>
    show (ght_insert t k v).1.WF
    by_cases hc : ∃ b ∈ nodesOf t, b.key = k
    · obtain ⟨b, hb, hk⟩ := hc
      obtain ⟨X, -, -, -, hwf, -⟩ := insert_found wf v hb hk
      exact hwf
    · push_neg at hc
      obtain ⟨-, -, hwf, -⟩ := insert_new wf v hc
      exact hwf
  | search k =>
    show (ght_search t k).1.WF
    by_cases hc : ∃ b ∈ nodesOf t, b.key = k
    · obtain ⟨b, hb, hk⟩ := hc
      obtain ⟨-, hwf, -⟩ := search_found wf hb hk
      exact hwf
    · push_neg at hc
      rw [search_not_found hc]
      exact wf
  | delete k =>
    show (ght_delete t k).1.WF
    by_cases hc : ∃ b ∈ nodesOf t, b.key = k
    · obtain ⟨b, hb, hk⟩ := hc
      obtain ⟨X, -, -, -, hwf, -⟩ := delete_found wf hb hk
      exact hwf
    · push_neg at hc
      rw [delete_not_found hc]
      exact wf
  | resize w =>
    show (ght_resize t w).1.WF
    by_cases hw : w = 0
    · subst hw
      have hzero : ght_resize t 0 = (t, -1) := rfl
      rw [hzero]
      exact wf
    · obtain ⟨-, hwf, -⟩ := resize_spec wf hw
      exact hwf

theorem runOps_WF {t : Table} (wf : t.WF) (ops : List Op) : (runOps t ops).WF := by
  induction ops generalizing t with
  | nil => exact wf
  | cons op ops ih => exact ih (applyOp_WF wf op)

/-- Every table reachable by running operations from a freshly created
table is well-formed. -/
theorem reachable_WF (cfg : Option Cfg) (ops : List Op) : (runOps (ght_create cfg) ops).WF :=
  runOps_WF (create_WF cfg) ops

/-! ### Claim theorems -/

/-- C10: create with a null configuration reference succeeds (the model
makes allocation total) and returns a table with the default width of
100 buckets, the built-in Murmur3 digestor, no cleanup callback, and
automatic resizing disabled. -/
theorem C10_create_null_cfg_defaults :
    (ght_create none).width = GHT_DEFAULT_WIDTH ∧ GHT_DEFAULT_WIDTH = 100 ∧
    (ght_create none).digestor = _ght_digestor_murmur3 ∧
    (ght_create none).hasDealloc = false ∧
    (ght_create none).autoResize = 0 ∧
    (ght_create none).load = 0 ∧
    (ght_create none).WF :=
  ⟨rfl, rfl, rfl, rfl, rfl, rfl, create_WF none⟩

/-- C1 counterexample: the claim says create with width = 0 fails and
returns no table; in the code `width = cfg->width ? cfg->width :
GHT_DEFAULT_WIDTH` silently substitutes the default instead, so create
succeeds and the resulting table has 100 buckets. -/
theorem C1_counterexample :
    (ght_create (some { digestor := none, hasDealloc := false, width := 0, autoResize := 0 })).width
        = 100 ∧
    (ght_create (some { digestor := none, hasDealloc := false, width := 0, autoResize := 0 })).load
        = 0 :=
  ⟨rfl, rfl⟩

/-- C1 amended: for every digestor, deallocator and auto-resize
threshold, calling create with width = 0 succeeds: the zero width is
treated as unset and replaced by the default width 100, the other
configuration fields are taken unchanged, and the table is well-formed
and empty. -/
theorem C1_amended_zero_width_defaults (cfg : Cfg) (h : cfg.width = 0) :
    (ght_create (some cfg)).width = GHT_DEFAULT_WIDTH ∧
    (ght_create (some cfg)).hasDealloc = cfg.hasDealloc ∧
    (ght_create (some cfg)).autoResize = cfg.autoResize ∧
    (ght_create (some cfg)).load = 0 ∧
    (ght_create (some cfg)).WF := by
  refine ⟨?_, rfl, rfl, rfl, create_WF _⟩
  simp [ght_create, h]

/-- C1 amended witness: the amended statement applied to the concrete
all-defaults configuration with width 0. -/
theorem C1_amended_zero_width_defaults_witness :
    ({ digestor := none, hasDealloc := false, width := 0, autoResize := 0 : Cfg }).width = 0 ∧
    (ght_create (some { digestor := none, hasDealloc := false, width := 0, autoResize := 0 })).width
        = GHT_DEFAULT_WIDTH :=
  ⟨rfl, (C1_amended_zero_width_defaults _ rfl).1⟩

/-- C9: every table produced by create and transformed by any sequence
of public operations keeps width > 0 (resize rejects a zero width with
`-1` leaving the table unchanged), so the index computation
`hash(key) mod width` of insert, search and delete never divides by
zero. -/
theorem C9_width_always_positive (cfg : Option Cfg) (ops : List Op) :
    0 < (runOps (ght_create cfg) ops).width ∧
    ght_resize (runOps (ght_create cfg) ops) 0 = (runOps (ght_create cfg) ops, -1) :=
  ⟨(reachable_WF cfg ops).width_pos, rfl⟩

/-- C8: delete of a key not present in the table returns failure (-1)
and returns the table state completely unchanged — load, width and the
whole bucket array — and invokes no cleanup callback. -/
theorem C8_delete_absent_noop (t : Table) (k : Nat) (habs : containsKey t k = false) :
    ght_delete t k = (t, -1, []) :=
  delete_not_found (containsKey_false_iff.mp habs)

/-- C8 witness: deleting key 5 from a freshly created (empty) table. -/
theorem C8_delete_absent_noop_witness :
    containsKey (ght_create none) 5 = false ∧
    ght_delete (ght_create none) 5 = (ght_create none, -1, []) :=
  ⟨by decide, C8_delete_absent_noop _ 5 (by decide)⟩

/-- C4: insert(k, v) immediately followed by search(k) returns v, for
every well-formed table and key/value pair. -/
theorem C4_insert_search_roundtrip (t : Table) (wf : t.WF) (k v : Nat) :
    (ght_search (ght_insert t k v).1 k).2 = v := by
  by_cases hc : ∃ b ∈ nodesOf t, b.key = k
  · obtain ⟨b, hb, hk⟩ := hc
    obtain ⟨X, -, -, -, hwf, hperm, -⟩ := insert_found wf v hb hk
    have hmem : ({ b with data := v } : Bucket) ∈ nodesOf (ght_insert t k v).1 :=
      hperm.mem_iff.mpr (List.mem_cons_self _ _)
    obtain ⟨hdata, -⟩ := search_found hwf hmem (show Bucket.key { b with data := v } = k from hk)
    exact hdata
  · push_neg at hc
    obtain ⟨-, -, hwf, hperm, -⟩ := insert_new wf v hc
    have hmem : ({ key := k, hash := t.digestor k, data := v } : Bucket)
        ∈ nodesOf (ght_insert t k v).1 :=
      hperm.mem_iff.mpr (List.mem_cons_self _ _)
    obtain ⟨hdata, -⟩ := search_found hwf hmem rfl
    exact hdata

/-- C4 witness: the round trip on a small table with the identity
digestor. -/
theorem C4_insert_search_roundtrip_witness :
    (ght_create (some ⟨some (fun n => n), false, 3, 0⟩)).WF ∧
    (ght_search (ght_insert (ght_create (some ⟨some (fun n => n), false, 3, 0⟩)) 1 7).1 1).2 = 7 :=
  ⟨create_WF _, C4_insert_search_roundtrip _ (create_WF _) 1 7⟩

/-- C2: inserting an absent key doubles the width to 2*w exactly when
the threshold is positive and (load+1)/w exceeds it (exact arithmetic in
place of the C `double` expression), and leaves the width unchanged
otherwise (in particular with threshold 0); in both cases the inserted
key is searchable, with its value, immediately after the insert — the
resize happens before the new node is linked. -/
theorem C2_auto_resize_trigger (t : Table) (wf : t.WF) (k v : Nat)
    (habs : containsKey t k = false) :
    ((ght_insert t k v).1.width =
      if 0 < t.autoResize ∧ t.autoResize < ((t.load : ℚ) + 1) / (t.width : ℚ)
      then t.width * 2 else t.width) ∧
    (ght_search (ght_insert t k v).1 k).2 = v := by
  have habs' := containsKey_false_iff.mp habs
  obtain ⟨-, -, hwf, hperm, hwidth, -⟩ := insert_new wf v habs'
  refine ⟨hwidth, ?_⟩
  have hmem : ({ key := k, hash := t.digestor k, data := v } : Bucket)
      ∈ nodesOf (ght_insert t k v).1 :=
    hperm.mem_iff.mpr (List.mem_cons_self _ _)
  obtain ⟨hdata, -⟩ := search_found hwf hmem rfl
  exact hdata

/-- C2 witness: a width-1 table with threshold 1/2; the first insert
has (0+1)/1 = 1 > 1/2, so the trigger fires. -/
theorem C2_auto_resize_trigger_witness :
    containsKey (ght_create (some ⟨some (fun n => n), false, 1, 1/2⟩)) 0 = false ∧
    ((ght_insert (ght_create (some ⟨some (fun n => n), false, 1, 1/2⟩)) 0 5).1.width =
      if 0 < (ght_create (some ⟨some (fun n => n), false, 1, 1/2⟩)).autoResize ∧
         (ght_create (some ⟨some (fun n => n), false, 1, 1/2⟩)).autoResize <
           (((ght_create (some ⟨some (fun n => n), false, 1, 1/2⟩)).load : ℚ) + 1) /
             ((ght_create (some ⟨some (fun n => n), false, 1, 1/2⟩)).width : ℚ)
      then (ght_create (some ⟨some (fun n => n), false, 1, 1/2⟩)).width * 2
      else (ght_create (some ⟨some (fun n => n), false, 1, 1/2⟩)).width) ∧
    (ght_search (ght_insert (ght_create (some ⟨some (fun n => n), false, 1, 1/2⟩)) 0 5).1 0).2
      = 5 :=
  ⟨by decide,
   (C2_auto_resize_trigger _ (create_WF _) 0 5 (by decide)).1,
   (C2_auto_resize_trigger _ (create_WF _) 0 5 (by decide)).2⟩

/-- C3: for every operation sequence from a freshly created table, load
equals the number of distinct keys present (the key list has no
duplicates); inserting a new key increments load by one, inserting an
existing key leaves it unchanged, and a successful delete decrements it
by one. -/
theorem C3_load_counts_keys (cfg : Option Cfg) (ops : List Op) :
    ((runOps (ght_create cfg) ops).load = (keysOf (runOps (ght_create cfg) ops)).length ∧
      (keysOf (runOps (ght_create cfg) ops)).Nodup) ∧
    (∀ k v, containsKey (runOps (ght_create cfg) ops) k = false →
      (ght_insert (runOps (ght_create cfg) ops) k v).1.load
        = (runOps (ght_create cfg) ops).load + 1) ∧
    (∀ k v, containsKey (runOps (ght_create cfg) ops) k = true →
      (ght_insert (runOps (ght_create cfg) ops) k v).1.load
        = (runOps (ght_create cfg) ops).load) ∧
    (∀ k, (ght_delete (runOps (ght_create cfg) ops) k).2.1 = 0 →
      (ght_delete (runOps (ght_create cfg) ops) k).1.load
        = (runOps (ght_create cfg) ops).load - 1) := by
  have wf := reachable_WF cfg ops
  refine ⟨⟨?_, wf.keys_nodup⟩, ?_, ?_, ?_⟩
  · rw [wf.load_eq, keysOf, List.length_map]
  · intro k v habs
    obtain ⟨-, -, -, -, -, hload, -⟩ := insert_new wf v (containsKey_false_iff.mp habs)
    exact hload
  · intro k v hpres
    obtain ⟨b, hb, hk⟩ := containsKey_iff.mp hpres
    obtain ⟨X, -, -, -, -, -, -, hload, -⟩ := insert_found wf v hb hk
    exact hload
  · intro k hst
    by_cases hc : ∃ b ∈ nodesOf (runOps (ght_create cfg) ops), b.key = k
    · obtain ⟨b, hb, hk⟩ := hc
      obtain ⟨X, -, -, -, -, -, -, hload, -⟩ := delete_found wf hb hk
      exact hload
    · push_neg at hc
      rw [delete_not_found hc] at hst
      simp at hst

/-- C3 witness: on the table {1 ↦ 2} (identity digestor, width 3):
inserting absent key 4 raises load to 2, re-inserting key 1 keeps load
1, deleting key 1 lowers load to 0. -/
theorem C3_load_counts_keys_witness :
    ((ght_insert (runOps (ght_create (some ⟨some (fun n => n), false, 3, 0⟩))
        [Op.insert 1 2]) 4 9).1.load
      = (runOps (ght_create (some ⟨some (fun n => n), false, 3, 0⟩)) [Op.insert 1 2]).load + 1) ∧
    ((ght_insert (runOps (ght_create (some ⟨some (fun n => n), false, 3, 0⟩))
        [Op.insert 1 2]) 1 8).1.load
      = (runOps (ght_create (some ⟨some (fun n => n), false, 3, 0⟩)) [Op.insert 1 2]).load) ∧
    ((ght_delete (runOps (ght_create (some ⟨some (fun n => n), false, 3, 0⟩))
        [Op.insert 1 2]) 1).1.load
      = (runOps (ght_create (some ⟨some (fun n => n), false, 3, 0⟩)) [Op.insert 1 2]).load - 1) :=
  ⟨(C3_load_counts_keys (some ⟨some (fun n => n), false, 3, 0⟩) [Op.insert 1 2]).2.1 4 9
      (by decide),
   (C3_load_counts_keys (some ⟨some (fun n => n), false, 3, 0⟩) [Op.insert 1 2]).2.2.1 1 8
      (by decide),
   (C3_load_counts_keys (some ⟨some (fun n => n), false, 3, 0⟩) [Op.insert 1 2]).2.2.2 1
      (by decide)⟩

/-- C5: resize to any positive width succeeds, preserves load and the
multiset of nodes (hence every payload and cached hash), sets the width
to the requested value, and search returns the same value as before for
every previously present key. -/
theorem C5_resize_preserves_contents (t : Table) (wf : t.WF) (w : Nat) (hw : 0 < w) :
    (ght_resize t w).2 = 0 ∧
    (ght_resize t w).1.load = t.load ∧
    (ght_resize t w).1.width = w ∧
    nodesOf (ght_resize t w).1 ~ nodesOf t ∧
    (∀ k, containsKey t k = true →
      (ght_search (ght_resize t w).1 k).2 = (ght_search t k).2) := by
  obtain ⟨hst, hwf, hperm, hwidth, hload, -⟩ := resize_spec wf (Nat.pos_iff_ne_zero.mp hw)
  refine ⟨hst, hload, hwidth, hperm, ?_⟩
  intro k hpres
  obtain ⟨b, hb, hk⟩ := containsKey_iff.mp hpres
  obtain ⟨hd1, -⟩ := search_found hwf (hperm.mem_iff.mpr hb) hk
  obtain ⟨hd2, -⟩ := search_found wf hb hk
  rw [hd1, hd2]

/-- C5 witness: shrinking the table {1 ↦ 2} from width 3 to width 5
succeeds and key 1 still maps to 2. -/
theorem C5_resize_preserves_contents_witness :
    (0 < 5) ∧
    (ght_resize (runOps (ght_create (some ⟨some (fun n => n), false, 3, 0⟩))
        [Op.insert 1 2]) 5).2 = 0 ∧
    (ght_search (ght_resize (runOps (ght_create (some ⟨some (fun n => n), false, 3, 0⟩))
        [Op.insert 1 2]) 5).1 1).2
      = (ght_search (runOps (ght_create (some ⟨some (fun n => n), false, 3, 0⟩))
          [Op.insert 1 2]) 1).2 :=
  ⟨by decide,
   (C5_resize_preserves_contents _ (reachable_WF (some ⟨some (fun n => n), false, 3, 0⟩)
      [Op.insert 1 2]) 5 (by decide)).1,
   (C5_resize_preserves_contents _ (reachable_WF (some ⟨some (fun n => n), false, 3, 0⟩)
      [Op.insert 1 2]) 5 (by decide)).2.2.2.2 1 (by decide)⟩

/-- C6 counterexample: the claim quantifies over all values v1, v2 and
demands the cleanup callback is "never" invoked with v2.  Taking
v1 = v2 = 5 on a fresh table with a callback, the second insert invokes
the callback exactly once with the old payload (0, 5) — which is also
(k, v2), contradicting the claim as stated. -/
theorem C6_counterexample :
    (ght_insert (ght_insert (ght_create (some ⟨some (fun n => n), true, 3, 0⟩)) 0 5).1 0 5).2.2
      = [(0, 5)] := by decide

/-- C6 amended: for every table with a cleanup callback in which k is
not yet present, and distinct payloads v1 ≠ v2, the sequence
insert(k, v1); insert(k, v2) makes search(k) return v2; the first insert
invokes no callback, the second invokes it exactly once, with the old
payload (k, v1) — showing the callback observes the old payload, not the
newly installed one — and never with v2. -/
theorem C6_overwrite_callback (t : Table) (wf : t.WF) (k v1 v2 : Nat)
    (hdl : t.hasDealloc = true) (habs : containsKey t k = false) (hne : v1 ≠ v2) :
    (ght_insert t k v1).2.2 = [] ∧
    (ght_insert (ght_insert t k v1).1 k v2).2.2 = [(k, v1)] ∧
    (k, v2) ∉ (ght_insert (ght_insert t k v1).1 k v2).2.2 ∧
    (ght_search (ght_insert (ght_insert t k v1).1 k v2).1 k).2 = v2 := by
  have habs' := containsKey_false_iff.mp habs
  obtain ⟨-, hev1, hwf1, hperm1, -, -, -, hhd1, -⟩ := insert_new wf v1 habs'
  have hmem1 : ({ key := k, hash := t.digestor k, data := v1 } : Bucket)
      ∈ nodesOf (ght_insert t k v1).1 :=
    hperm1.mem_iff.mpr (List.mem_cons_self _ _)
  obtain ⟨X, -, -, hev2, hwf2, hperm2, -⟩ := insert_found hwf1 v2 hmem1 rfl
  have hev2' : (ght_insert (ght_insert t k v1).1 k v2).2.2 = [(k, v1)] := by
    rw [hev2, hhd1, hdl]
    rfl
  refine ⟨hev1, hev2', ?_, ?_⟩
  · rw [hev2']
    intro hmem
    rcases List.mem_singleton.mp hmem with h
    exact hne (by injection h with h1 h2; exact h2.symm)
  · have hmem2 : ({ key := k, hash := t.digestor k, data := v2 } : Bucket)
        ∈ nodesOf (ght_insert (ght_insert t k v1).1 k v2).1 :=
      hperm2.mem_iff.mpr (List.mem_cons_self _ _)
    obtain ⟨hdata, -⟩ := search_found hwf2 hmem2 rfl
    exact hdata

/-- C6 amended witness: the amended statement at k = 0, v1 = 5, v2 = 6
on a fresh width-3 table with a callback. -/
theorem C6_overwrite_callback_witness :
    (ght_create (some ⟨some (fun n => n), true, 3, 0⟩)).hasDealloc = true ∧
    containsKey (ght_create (some ⟨some (fun n => n), true, 3, 0⟩)) 0 = false ∧
    (ght_insert (ght_insert (ght_create (some ⟨some (fun n => n), true, 3, 0⟩)) 0 5).1 0 6).2.2
      = [(0, 5)] ∧
    (ght_search (ght_insert (ght_insert (ght_create (some ⟨some (fun n => n), true, 3, 0⟩))
        0 5).1 0 6).1 0).2 = 6 :=
  ⟨by decide, by decide,
   (C6_overwrite_callback (ght_create (some ⟨some (fun n => n), true, 3, 0⟩))
      (create_WF _) 0 5 6 (by decide) (by decide) (by decide)).2.1,
   (C6_overwrite_callback (ght_create (some ⟨some (fun n => n), true, 3, 0⟩))
      (create_WF _) 0 5 6 (by decide) (by decide) (by decide)).2.2.2⟩

/-- C7: whenever the chain walk for key k finds k's node — the node b
with key k — the chain at k's bucket decomposes as front ++ b :: rest
with no k in front, and both a successful search and an insert that
found k present leave that chain as b :: (front ++ rest): k's node is
the new head and the nodes previously in front of it are shifted back
in their original order, unchanged (insert additionally installs the
new payload in b). -/
theorem C7_move_to_front (t : Table) (wf : t.WF) (k v : Nat) (b : Bucket)
    (hb : b ∈ nodesOf t) (hk : b.key = k) :
    ∃ front rest,
      t.buckets.getD (t.digestor k % t.width) [] = front ++ b :: rest ∧
      (∀ x ∈ front, x.key ≠ k) ∧
      (ght_search t k).1.buckets.getD (t.digestor k % t.width) [] = b :: (front ++ rest) ∧
      (ght_insert t k v).1.buckets.getD (t.digestor k % t.width) []
        = { b with data := v } :: (front ++ rest) := by
  have hhash : b.hash = t.digestor k := by rw [wf.hashed b hb, hk]
  obtain ⟨hi, hmem⟩ := wf.inChain hb
  rw [hhash] at hi hmem
  obtain ⟨front, bb, rest, hsplit⟩ := chainSplit_isSome_of_mem hmem hk
  have hbb : bb = b := found_eq_mem wf hb hk hsplit
  subst hbb
  obtain ⟨hchain, -, hfront⟩ := chainSplit_some hsplit
  refine ⟨front, rest, hchain, hfront, ?_, ?_⟩
  · rw [ght_search_eq_found hsplit]
    exact getD_set_self hi
  · rw [ght_insert_eq_found hsplit]
    exact getD_set_self hi

/-- C7 witness: with a constant digestor and width 1, the table holds
the chain [node 2, node 1]; searching key 1 must move node 1 to the
front. -/
theorem C7_move_to_front_witness :
    (⟨1, 0, 10⟩ : Bucket) ∈ nodesOf (runOps (ght_create (some ⟨some (fun _ => 0), false, 1, 0⟩))
      [Op.insert 1 10, Op.insert 2 20]) ∧
    (∃ front rest,
      (runOps (ght_create (some ⟨some (fun _ => 0), false, 1, 0⟩))
          [Op.insert 1 10, Op.insert 2 20]).buckets.getD
          ((runOps (ght_create (some ⟨some (fun _ => 0), false, 1, 0⟩))
            [Op.insert 1 10, Op.insert 2 20]).digestor 1 %
           (runOps (ght_create (some ⟨some (fun _ => 0), false, 1, 0⟩))
            [Op.insert 1 10, Op.insert 2 20]).width) []
        = front ++ (⟨1, 0, 10⟩ : Bucket) :: rest ∧
      (∀ x ∈ front, x.key ≠ 1) ∧
      (ght_search (runOps (ght_create (some ⟨some (fun _ => 0), false, 1, 0⟩))
          [Op.insert 1 10, Op.insert 2 20]) 1).1.buckets.getD
          ((runOps (ght_create (some ⟨some (fun _ => 0), false, 1, 0⟩))
            [Op.insert 1 10, Op.insert 2 20]).digestor 1 %
           (runOps (ght_create (some ⟨some (fun _ => 0), false, 1, 0⟩))
            [Op.insert 1 10, Op.insert 2 20]).width) []
        = (⟨1, 0, 10⟩ : Bucket) :: (front ++ rest) ∧
      (ght_insert (runOps (ght_create (some ⟨some (fun _ => 0), false, 1, 0⟩))
          [Op.insert 1 10, Op.insert 2 20]) 1 11).1.buckets.getD
          ((runOps (ght_create (some ⟨some (fun _ => 0), false, 1, 0⟩))
            [Op.insert 1 10, Op.insert 2 20]).digestor 1 %
           (runOps (ght_create (some ⟨some (fun _ => 0), false, 1, 0⟩))
            [Op.insert 1 10, Op.insert 2 20]).width) []
        = ({ (⟨1, 0, 10⟩ : Bucket) with data := 11 }) :: (front ++ rest)) :=
  ⟨by decide,
   C7_move_to_front _ (reachable_WF (some ⟨some (fun _ => 0), false, 1, 0⟩)
     [Op.insert 1 10, Op.insert 2 20]) 1 11 ⟨1, 0, 10⟩ (by decide) rfl⟩
